import Mathlib

/-!
Verification of the offset-chain memory accessor (`LocalMember<T>` in
`src/local_member.rs`) against its natural-language specification.

Embedding choices:
* Addresses and offsets are `Nat`s taken modulo `2 ^ w`, where `w` is the
  address width in bits (`usize` is address-sized; on the target platforms
  `w = 64`).  Wrapping addition `x.wrapping_add y` becomes `(x + y) % 2 ^ w`.
* Memory is a byte map `mem : Nat → Nat` (address to byte value; reads clamp
  with `% 256`).  `read_unaligned::<usize>()` at address `a` assembles the
  `w / 8` bytes at `a, a+1, ...` little-endian; `copy_nonoverlapping` of a
  `size`-byte value stores its little-endian bytes.  Address arithmetic on the
  byte index also wraps modulo `2 ^ w`.
* A value of a fixed-size, bitwise-copyable type `T` with
  `size_of::<T>() = size` is represented by its bit pattern, a `Nat` below
  `256 ^ size`, transferred little-endian.
* Rust panics (the `len() - 1` underflow / out-of-bounds indexing that
  `get_offset` performs on an empty offset vector) are modelled explicitly by
  the `RResult.panicked` outcome; the recoverable `std::io::Error` carries its
  message string.
-/

/-- Outcome of a `LocalMember` operation: a Rust panic, a recoverable
`std::io::Error` (identified by its message), or success. -/
inductive RResult (α : Type) where
  | panicked : RResult α
  | err : String → RResult α
  | ok : α → RResult α
deriving DecidableEq

/-- The message of the only `std::io::Error` the source ever constructs. -/
def nullDerefMsg : String := "Would be a null dereference!"

/-- The accessor `LocalMember<T>`: its state is just its offset vector (the
`PhantomData` field carries no data; the value type is handled by the `size`
parameter of `read` and `write`). -/
structure LocalMember where
  offsets : List Nat
deriving DecidableEq

/-- Little-endian value of a byte list (each entry clamped to a byte). -/
def fromLE : List Nat → Nat
  | [] => 0
  | b :: bs => b % 256 + 256 * fromLE bs

/-- Little-endian byte decomposition of `v` into `n` bytes. -/
def toLEBytes : Nat → Nat → List Nat
  | 0, _ => []
  | n + 1, v => v % 256 :: toLEBytes n (v / 256)

/-- The `n` bytes of memory starting at address `a` (byte addresses wrap
modulo `2 ^ w`). -/
def loadBytes (w : Nat) (mem : Nat → Nat) (a n : Nat) : List Nat :=
  (List.range n).map (fun i => mem ((a + i) % 2 ^ w) % 256)

/-- The load `(a as *const usize).read_unaligned()`: the address-sized integer at `a`,
assembled from `w / 8` bytes little-endian.  Byte granularity makes the load
alignment-agnostic by construction. -/
def loadUsize (w : Nat) (mem : Nat → Nat) (a : Nat) : Nat :=
  fromLE (loadBytes w mem a (w / 8))

/-- Store (`copy_nonoverlapping`): the byte list `bs` into memory starting at
address `a` (byte addresses wrap modulo `2 ^ w`). -/
def storeBytes (w : Nat) (mem : Nat → Nat) (a : Nat) : List Nat → (Nat → Nat)
  | [] => mem
  | b :: bs => storeBytes w (fun x => if x = a % 2 ^ w then b % 256 else mem x) (a + 1) bs

namespace LocalMember

/-- The loop body of `get_offset`, run over the offsets it iterates
(`self.offsets[i]` for `i in 0..len - 1`): wrapping add, null check, then the
alignment-agnostic dereference that replaces the accumulator. -/
def resolveLoop (w : Nat) (mem : Nat → Nat) (acc : Nat) : List Nat → Except String Nat
  | [] => Except.ok acc
  | o :: rest =>
    let acc2 := (acc + o) % 2 ^ w
    if acc2 = 0 then Except.error nullDerefMsg
    else resolveLoop w mem (loadUsize w mem acc2) rest

/-- Source `LocalMember::get_offset` (the spec's `resolve_address`).  On an empty
offset vector the source evaluates `self.offsets.len() - 1`, which underflows
(debug: overflow panic; release: the loop then indexes `self.offsets[0]` out
of bounds) — a panic either way, modelled as `RResult.panicked`.  Otherwise it
runs the loop over all offsets but the last and wrapping-adds the last offset
to the accumulator, with no null check on that final result. -/
def get_offset (w : Nat) (mem : Nat → Nat) (m : LocalMember) : RResult Nat :=
  match m.offsets with
  | [] => RResult.panicked
  | o :: os =>
    match resolveLoop w mem 0 ((o :: os).dropLast) with
    | Except.error e => RResult.err e
    | Except.ok acc => RResult.ok ((acc + (o :: os).getLastD 0) % 2 ^ w)

/-- Source `LocalMember::set_offset`: replaces the offset vector, nothing else. -/
def set_offset (m : LocalMember) (new_offsets : List Nat) : LocalMember :=
  { m with offsets := new_offsets }

/-- Source `LocalMember::read` for a `T` with `size_of::<T>() = size`: resolve the
address, then `read_unaligned` a `T`-sized value there (little-endian bytes). -/
def read (w size : Nat) (mem : Nat → Nat) (m : LocalMember) : RResult Nat :=
  match get_offset w mem m with
  | RResult.panicked => RResult.panicked
  | RResult.err e => RResult.err e
  | RResult.ok a => RResult.ok (fromLE (loadBytes w mem a size))

/-- Source `LocalMember::write` for a `T` with `size_of::<T>() = size`: resolve the
address, then `copy_nonoverlapping` the `size` bytes of `value` there.  The
resulting memory is returned (state passing). -/
def write (w size : Nat) (mem : Nat → Nat) (m : LocalMember) (value : Nat) :
    RResult (Nat → Nat) :=
  match get_offset w mem m with
  | RResult.panicked => RResult.panicked
  | RResult.err e => RResult.err e
  | RResult.ok a => RResult.ok (storeBytes w mem a (toLEBytes size value))

end LocalMember

/-- Modelled from the spec: one step of the spec's resolution loop ("add the
offset with wrapping add; if the accumulator is exactly 0 fail with
`NullDereference`; otherwise replace the accumulator with the address-sized
integer read from it"), lifted over an already-failed accumulator. -/
def specStep (w : Nat) (mem : Nat → Nat) (acc : Except String Nat) (o : Nat) :
    Except String Nat :=
  match acc with
  | Except.error e => Except.error e
  | Except.ok a =>
    let a2 := (a + o) % 2 ^ w
    if a2 = 0 then Except.error nullDerefMsg
    else Except.ok (loadUsize w mem a2)

/-- Modelled from the spec: `resolve_address` for a non-empty chain as the
spec words it — fold `specStep` over all offsets but the last starting from
accumulator 0, then wrapping-add the last offset and return. -/
def specResolve (w : Nat) (mem : Nat → Nat) (offsets : List Nat) : Except String Nat :=
  match offsets.dropLast.foldl (specStep w mem) (Except.ok 0) with
  | Except.error e => Except.error e
  | Except.ok acc => Except.ok ((acc + offsets.getLastD 0) % 2 ^ w)

/-- View of an `Except` outcome as a non-panicking `RResult`. -/
def toRResult : Except String Nat → RResult Nat
  | Except.error e => RResult.err e
  | Except.ok a => RResult.ok a

/-- A call of `get_offset` through its Rust signature `fn get_offset(&self)`:
the receiver is a shared borrow with no interior mutability, so a call yields
its result together with the accessor, unchanged. -/
def get_offset_call (w : Nat) (mem : Nat → Nat) (m : LocalMember) :
    RResult Nat × LocalMember :=
  (LocalMember.get_offset w mem m, m)

namespace LocalMember

theorem resolveLoop_append (w : Nat) (mem : Nat → Nat) (acc : Nat) (xs ys : List Nat) :
    resolveLoop w mem acc (xs ++ ys) =
      match resolveLoop w mem acc xs with
      | Except.error e => Except.error e
      | Except.ok a => resolveLoop w mem a ys := by
  induction xs generalizing acc with
  | nil => rfl
  | cons o rest ih =>
    simp only [List.cons_append, resolveLoop]
    by_cases h : (acc + o) % 2 ^ w = 0
    · simp [h]
    · simp [h, ih]

theorem resolveLoop_error_msg (w : Nat) (mem : Nat → Nat) :
    ∀ (os : List Nat) (acc : Nat) (e : String),
      resolveLoop w mem acc os = Except.error e → e = nullDerefMsg := by
  intro os
  induction os with
  | nil => intro acc e h; exact absurd h (by simp [resolveLoop])
  | cons o rest ih =>
    intro acc e h
    simp only [resolveLoop] at h
    by_cases hz : (acc + o) % 2 ^ w = 0
    · simp [hz] at h; exact h.symm
    · simp [hz] at h; exact ih _ _ h

theorem get_offset_char (w : Nat) (mem : Nat → Nat) (offsets : List Nat)
    (h : offsets ≠ []) :
    get_offset w mem { offsets := offsets } =
      match resolveLoop w mem 0 offsets.dropLast with
      | Except.error e => RResult.err e
      | Except.ok acc => RResult.ok ((acc + offsets.getLastD 0) % 2 ^ w) := by
  cases offsets with
  | nil => exact absurd rfl h
  | cons o os => rfl

end LocalMember

theorem foldl_specStep_error (w : Nat) (mem : Nat → Nat) (e : String) (os : List Nat) :
    os.foldl (specStep w mem) (Except.error e) = Except.error e := by
  induction os with
  | nil => rfl
  | cons o rest ih => simpa [specStep] using ih

theorem foldl_specStep_ok (w : Nat) (mem : Nat → Nat) (os : List Nat) (acc : Nat) :
    os.foldl (specStep w mem) (Except.ok acc) = LocalMember.resolveLoop w mem acc os := by
  induction os generalizing acc with
  | nil => rfl
  | cons o rest ih =>
    simp only [List.foldl_cons, LocalMember.resolveLoop]
    by_cases h : (acc + o) % 2 ^ w = 0
    · simp [specStep, h, foldl_specStep_error]
    · simp [specStep, h, ih]

/-- C1 counterexample: on an empty offset sequence `get_offset` panics; it does
not return an `InvalidChain` (or any) recoverable error. -/
theorem empty_chain_cex :
    LocalMember.get_offset 64 (fun _ => 0) { offsets := [] } = RResult.panicked := rfl

/-- C1 (amended): for every accessor whose offset sequence is empty,
`get_offset` panics (the `len() - 1` underflow / out-of-bounds index); no
`InvalidChain` error kind exists in the code. -/
theorem empty_chain_panics (w : Nat) (mem : Nat → Nat) :
    LocalMember.get_offset w mem { offsets := [] } = RResult.panicked := rfl

/-- C2: for every non-empty offset sequence, `get_offset` computes exactly the
fold the spec describes: accumulator starts at 0; each offset but the last is
wrapping-added and the accumulator replaced by the address-sized integer
loaded at it (after a null check); the last offset is wrapping-added and the
result returned. -/
theorem get_offset_eq_specResolve (w : Nat) (mem : Nat → Nat) (offsets : List Nat)
    (h : offsets ≠ []) :
    LocalMember.get_offset w mem { offsets := offsets } =
      toRResult (specResolve w mem offsets) := by
  rw [LocalMember.get_offset_char w mem offsets h]
  simp only [specResolve, foldl_specStep_ok]
  cases LocalMember.resolveLoop w mem 0 offsets.dropLast with
  | error e => rfl
  | ok acc => rfl

/-- C2 witness: the fold description agrees with `get_offset` on the concrete
chain `[3, 4]` over zeroed memory. -/
theorem get_offset_eq_specResolve_witness :
    LocalMember.get_offset 64 (fun _ => 0) { offsets := [3, 4] } =
      toRResult (specResolve 64 (fun _ => 0) [3, 4]) :=
  get_offset_eq_specResolve 64 (fun _ => 0) [3, 4] (by simp)

/-- C3: if the accumulator is exactly 0 right after the wrapping add of an
offset that is not the last, resolution fails with the null-dereference error
(the check precedes that step's dereference in `resolveLoop`). -/
theorem null_intermediate_fails (w : Nat) (mem : Nat → Nat) (pre : List Nat) (o : Nat)
    (post : List Nat) (acc : Nat)
    (hpre : LocalMember.resolveLoop w mem 0 pre = Except.ok acc)
    (hzero : (acc + o) % 2 ^ w = 0)
    (hpost : post ≠ []) :
    LocalMember.get_offset w mem { offsets := pre ++ o :: post } =
      RResult.err nullDerefMsg := by
  rw [LocalMember.get_offset_char w mem _ (by simp)]
  rw [List.dropLast_append_cons]
  cases post with
  | nil => exact absurd rfl hpost
  | cons p ps =>
    rw [List.dropLast_cons₂, LocalMember.resolveLoop_append, hpre]
    simp [LocalMember.resolveLoop, hzero]

/-- C3 witness: the chain `[0, 5]` fails with the null-dereference error (the
first intermediate accumulator is 0). -/
theorem null_intermediate_fails_witness :
    LocalMember.get_offset 64 (fun _ => 0) { offsets := [0, 5] } =
      RResult.err nullDerefMsg :=
  null_intermediate_fails 64 (fun _ => 0) [] 0 [5] 0 rfl (by decide) (by simp)

/-- C4: whenever the loop over all-but-last offsets succeeds (no intermediate
accumulator was 0), `get_offset` returns `ok` of the wrapping sum of the final
accumulator and the last offset — with no null check on that final value. -/
theorem resolve_ok_no_final_null_check (w : Nat) (mem : Nat → Nat) (offsets : List Nat)
    (acc : Nat) (hne : offsets ≠ [])
    (hloop : LocalMember.resolveLoop w mem 0 offsets.dropLast = Except.ok acc) :
    LocalMember.get_offset w mem { offsets := offsets } =
      RResult.ok ((acc + offsets.getLastD 0) % 2 ^ w) := by
  rw [LocalMember.get_offset_char w mem offsets hne, hloop]

/-- C4 witness: the chain `[1, 0]` over zeroed memory resolves successfully to
the final address 0 — no error for a final resolved address of 0. -/
theorem resolve_ok_no_final_null_check_witness :
    LocalMember.get_offset 64 (fun _ => 0) { offsets := [1, 0] } = RResult.ok 0 :=
  resolve_ok_no_final_null_check 64 (fun _ => 0) [1, 0] 0 (by simp) rfl

/-- C10: a single-element chain `[a]` resolves to `ok a` for every memory
state (no dereference is performed), including `a = 0`: the null guard applies
only to intermediate accumulators. -/
theorem single_chain_no_deref (w a : Nat) (h : a < 2 ^ w) :
    ∀ mem : Nat → Nat,
      LocalMember.get_offset w mem { offsets := [a] } = RResult.ok a := by
  intro mem
  simp [LocalMember.get_offset, LocalMember.resolveLoop, Nat.mod_eq_of_lt h]

/-- C10 witness: the chain `[0]` resolves to address 0 without error, over a
nonzero memory state. -/
theorem single_chain_no_deref_witness :
    LocalMember.get_offset 64 (fun _ => 7) { offsets := [0] } = RResult.ok 0 :=
  single_chain_no_deref 64 0 (by decide) (fun _ => 7)

theorem resolveLoop_map_mod (w : Nat) (mem : Nat → Nat) (os : List Nat) (acc : Nat) :
    LocalMember.resolveLoop w mem acc (os.map (fun o => o % 2 ^ w)) =
      LocalMember.resolveLoop w mem acc os := by
  induction os generalizing acc with
  | nil => rfl
  | cons o rest ih =>
    have hmod : (acc + o % 2 ^ w) % 2 ^ w = (acc + o) % 2 ^ w :=
      Nat.ModEq.add_left acc (Nat.mod_modEq o (2 ^ w))
    simp only [List.map_cons, LocalMember.resolveLoop, hmod]
    by_cases h : (acc + o) % 2 ^ w = 0
    · simp [h]
    · simp [h, ih]

theorem getLastD_map_mod (w : Nat) :
    ∀ (os : List Nat) (o : Nat),
      (os.map (fun x => x % 2 ^ w)).getLastD (o % 2 ^ w) = os.getLastD o % 2 ^ w := by
  intro os
  induction os with
  | nil => intro o; rfl
  | cons a rest ih =>
    intro o
    simp only [List.map_cons, List.getLastD_cons]
    exact ih a

/-- C7: for every non-empty chain, `get_offset` never panics regardless of how
the additions overflow; every returned address lies below `2 ^ w`; and the
result only depends on the offsets modulo `2 ^ w` — every combination of an
offset with the accumulator is addition modulo `2 ^ w`. -/
theorem wrapping_modular (w : Nat) (mem : Nat → Nat) (offsets : List Nat)
    (h : offsets ≠ []) :
    LocalMember.get_offset w mem { offsets := offsets } ≠ RResult.panicked ∧
    (∀ a, LocalMember.get_offset w mem { offsets := offsets } = RResult.ok a →
      a < 2 ^ w) ∧
    LocalMember.get_offset w mem { offsets := offsets.map (fun o => o % 2 ^ w) } =
      LocalMember.get_offset w mem { offsets := offsets } := by
  have hchar := LocalMember.get_offset_char w mem offsets h
  refine ⟨?_, ?_, ?_⟩
  · rw [hchar]
    cases LocalMember.resolveLoop w mem 0 offsets.dropLast with
    | error e => simp
    | ok acc => simp
  · intro a ha
    rw [hchar] at ha
    cases hr : LocalMember.resolveLoop w mem 0 offsets.dropLast with
    | error e => rw [hr] at ha; exact absurd ha (by simp)
    | ok acc =>
      rw [hr] at ha
      simp only [RResult.ok.injEq] at ha
      rw [← ha]
      exact Nat.mod_lt _ (Nat.two_pow_pos w)
  · have hm : (offsets.map (fun o => o % 2 ^ w)) ≠ [] := by
      cases offsets with
      | nil => exact absurd rfl h
      | cons o os => simp
    rw [LocalMember.get_offset_char w mem _ hm, hchar]
    rw [← List.map_dropLast, resolveLoop_map_mod]
    cases LocalMember.resolveLoop w mem 0 offsets.dropLast with
    | error e => rfl
    | ok acc =>
      cases offsets with
      | nil => exact absurd rfl h
      | cons o os =>
        simp only [List.map_cons, List.getLastD_cons, RResult.ok.injEq]
        rw [getLastD_map_mod w os o]
        exact Nat.ModEq.add_left acc (Nat.mod_modEq _ (2 ^ w))

/-- C7 witness: the chain `[1, 1]` over memory whose every byte is 255 (so the
loaded word is `2 ^ 64 - 1`) does not panic, and the final add wraps to
address 0. -/
theorem wrapping_modular_witness :
    LocalMember.get_offset 64 (fun _ => 255) { offsets := [1, 1] } ≠
        RResult.panicked ∧
      LocalMember.get_offset 64 (fun _ => 255) { offsets := [1, 1] } =
        RResult.ok 0 :=
  ⟨(wrapping_modular 64 (fun _ => 255) [1, 1] (by simp)).1, by decide⟩

/-- C8: resolution is deterministic and mutation-free: a `get_offset` call
(through the `&self` signature) leaves the accessor unchanged, a second call
on the state the first returns yields the same result, and the result depends
on nothing but the offset sequence and the memory state. -/
theorem resolve_deterministic (w : Nat) (mem : Nat → Nat) (m : LocalMember) :
    (get_offset_call w mem m).1 =
        (get_offset_call w mem (get_offset_call w mem m).2).1 ∧
    (get_offset_call w mem m).2 = m ∧
    (∀ m2 : LocalMember, m2.offsets = m.offsets →
      LocalMember.get_offset w mem m2 = LocalMember.get_offset w mem m) := by
  refine ⟨rfl, rfl, ?_⟩
  intro m2 h2
  cases m2 with
  | mk offs2 =>
    cases m with
    | mk offs =>
      simp only at h2
      rw [h2]

/-- C8 witness: two successive calls on the concrete chain `[1, 0]` agree and
leave the accessor unchanged. -/
theorem resolve_deterministic_witness :
    (get_offset_call 64 (fun _ => 0) { offsets := [1, 0] }).1 =
        (get_offset_call 64 (fun _ => 0)
          (get_offset_call 64 (fun _ => 0) { offsets := [1, 0] }).2).1 ∧
      (get_offset_call 64 (fun _ => 0) { offsets := [1, 0] }).2 =
        { offsets := [1, 0] } :=
  ⟨(resolve_deterministic 64 (fun _ => 0) { offsets := [1, 0] }).1,
    (resolve_deterministic 64 (fun _ => 0) { offsets := [1, 0] }).2.1⟩

/-- C9: `set_offset` is total and residue-free: setting `A` then `B` equals
setting `B` alone, leaves exactly `B` as the offset sequence, and a subsequent
`get_offset` uses exactly `B`; the replacement is the only effect. -/
theorem set_offset_total (m : LocalMember) (A B : List Nat) :
    LocalMember.set_offset (LocalMember.set_offset m A) B =
        LocalMember.set_offset m B ∧
    (LocalMember.set_offset (LocalMember.set_offset m A) B).offsets = B ∧
    (∀ (w : Nat) (mem : Nat → Nat),
      LocalMember.get_offset w mem (LocalMember.set_offset (LocalMember.set_offset m A) B) =
        LocalMember.get_offset w mem { offsets := B }) :=
  ⟨rfl, rfl, fun _ _ => rfl⟩

/-- C6 counterexample: on an empty offset sequence `read` panics — no
`InvalidChain` recoverable error exists or propagates. -/
theorem error_kinds_cex :
    LocalMember.read 64 4 (fun _ => 0) { offsets := [] } = RResult.panicked := rfl

/-- C6 (amended): the only recoverable error is the null-dereference error
(an intermediate accumulator exactly zero); an empty offset sequence panics
instead of producing an error; `read` and `write` fail with a recoverable
error exactly when `get_offset` does, propagating it unchanged. -/
theorem error_propagation (w size : Nat) (mem : Nat → Nat) (m : LocalMember)
    (value : Nat) (e : String) :
    (LocalMember.get_offset w mem m = RResult.err e → e = nullDerefMsg) ∧
    (LocalMember.read w size mem m = RResult.err e ↔
      LocalMember.get_offset w mem m = RResult.err e) ∧
    (LocalMember.write w size mem m value = RResult.err e ↔
      LocalMember.get_offset w mem m = RResult.err e) := by
  refine ⟨?_, ?_, ?_⟩
  · intro he
    cases m with
    | mk offs =>
      cases offs with
      | nil => exact absurd he (by simp [LocalMember.get_offset])
      | cons o os =>
        have hc := LocalMember.get_offset_char w mem (o :: os) (by simp)
        rw [hc] at he
        cases hr : LocalMember.resolveLoop w mem 0 (o :: os).dropLast with
        | error e2 =>
          rw [hr] at he
          simp only [RResult.err.injEq] at he
          rw [← he]
          exact LocalMember.resolveLoop_error_msg w mem _ _ _ hr
        | ok acc => rw [hr] at he; exact absurd he (by simp)
  · unfold LocalMember.read
    cases LocalMember.get_offset w mem m with
    | panicked => simp
    | err e2 => simp
    | ok a => simp
  · unfold LocalMember.write
    cases LocalMember.get_offset w mem m with
    | panicked => simp
    | err e2 => simp
    | ok a => simp

/-- C6 witness: on the chain `[0, 5]` the null-dereference error arising in
`get_offset` propagates unchanged through `read`. -/
theorem error_propagation_witness :
    LocalMember.read 64 4 (fun _ => 0) { offsets := [0, 5] } =
      RResult.err nullDerefMsg :=
  (error_propagation 64 4 (fun _ => 0) { offsets := [0, 5] } 0
    nullDerefMsg).2.1.mpr (by decide)

theorem toLEBytes_length (n : Nat) : ∀ v : Nat, (toLEBytes n v).length = n := by
  induction n with
  | zero => intro v; rfl
  | succ n ih => intro v; simp [toLEBytes, ih]

theorem fromLE_toLEBytes : ∀ (n v : Nat), v < 256 ^ n → fromLE (toLEBytes n v) = v := by
  intro n
  induction n with
  | zero =>
    intro v h
    have hv : v = 0 := Nat.lt_one_iff.mp (by simpa using h)
    simp [hv, toLEBytes, fromLE]
  | succ n ih =>
    intro v h
    have hdiv : v / 256 < 256 ^ n := by
      rw [Nat.div_lt_iff_lt_mul (by norm_num)]
      calc v < 256 ^ (n + 1) := h
        _ = 256 ^ n * 256 := by rw [pow_succ]
    simp only [toLEBytes, fromLE, ih _ hdiv]
    omega

theorem fromLE_map_mod : ∀ bs : List Nat, fromLE (bs.map (fun b => b % 256)) = fromLE bs := by
  intro bs
  induction bs with
  | nil => rfl
  | cons b rest ih =>
    simp only [List.map_cons, fromLE, ih]
    omega

theorem storeBytes_notin (w : Nat) :
    ∀ (bs : List Nat) (mem : Nat → Nat) (a x : Nat),
      (∀ j, j < bs.length → x ≠ (a + j) % 2 ^ w) →
      storeBytes w mem a bs x = mem x := by
  intro bs
  induction bs with
  | nil => intro mem a x _; rfl
  | cons b rest ih =>
    intro mem a x hx
    simp only [storeBytes]
    rw [ih _ (a + 1) x ?_]
    · have h0 : x ≠ a % 2 ^ w := by simpa using hx 0 (by simp)
      simp [h0]
    · intro j hj
      have h1 := hx (j + 1) (by simpa using Nat.succ_lt_succ hj)
      have h2 : a + 1 + j = a + (j + 1) := by omega
      rw [h2]
      exact h1

theorem storeBytes_get (w : Nat) :
    ∀ (bs : List Nat) (mem : Nat → Nat) (a i : Nat),
      i < bs.length →
      (∀ j, j < bs.length → j ≠ i → (a + j) % 2 ^ w ≠ (a + i) % 2 ^ w) →
      storeBytes w mem a bs ((a + i) % 2 ^ w) = bs.getD i 0 % 256 := by
  intro bs
  induction bs with
  | nil => intro mem a i hi _; simp at hi
  | cons b rest ih =>
    intro mem a i hi hdist
    cases i with
    | zero =>
      simp only [storeBytes]
      rw [storeBytes_notin w rest _ (a + 1) _ ?_]
      · simp
      · intro j hj
        have h1 := hdist (j + 1) (by simpa using Nat.succ_lt_succ hj) (by omega)
        have h2 : a + 1 + j = a + (j + 1) := by omega
        rw [h2]
        exact fun he => h1 he.symm
    | succ i2 =>
      simp only [storeBytes]
      have heq : a + (i2 + 1) = a + 1 + i2 := by omega
      rw [heq]
      rw [ih _ (a + 1) i2 (by simpa using Nat.lt_of_succ_lt_succ hi) ?_]
      · simp
      · intro j hj hne
        have h1 := hdist (j + 1) (by simpa using Nat.succ_lt_succ hj) (by omega)
        have h2 : a + 1 + j = a + (j + 1) := by omega
        have h3 : a + 1 + i2 = a + (i2 + 1) := by omega
        rw [h2, h3]
        exact h1

theorem addr_distinct (w n a : Nat) (hn : n ≤ 2 ^ w) :
    ∀ i j, i < n → j < n → i ≠ j → (a + i) % 2 ^ w ≠ (a + j) % 2 ^ w := by
  intro i j hi hj hne heq
  apply hne
  have h1 : i % 2 ^ w = j % 2 ^ w := Nat.ModEq.add_left_cancel' a heq
  rwa [Nat.mod_eq_of_lt (lt_of_lt_of_le hi hn),
    Nat.mod_eq_of_lt (lt_of_lt_of_le hj hn)] at h1

theorem loadBytes_storeBytes (w : Nat) (mem : Nat → Nat) (a : Nat) (bs : List Nat)
    (h : bs.length ≤ 2 ^ w) :
    loadBytes w (storeBytes w mem a bs) a bs.length = bs.map (fun b => b % 256) := by
  apply List.ext_getElem
  · simp [loadBytes]
  · intro i h1 h2
    simp only [loadBytes, List.getElem_map, List.getElem_range]
    have hi : i < bs.length := by simpa [loadBytes] using h1
    rw [storeBytes_get w bs mem a i hi ?_]
    · rw [List.getD_eq_getElem bs 0 hi]
      omega
    · intro j hj hne
      exact addr_distinct w bs.length a h j i hj hi hne

/-- C5: round-trip law — for a value `v` representable in `size` bytes and an
accessor whose chain resolves to address `a` both before and after the store,
`write v` succeeds, producing the memory with the bytes of `v` at `a`, and
`read` on that memory returns exactly `v`. -/
theorem write_read_roundtrip (w size : Nat) (mem : Nat → Nat) (m : LocalMember)
    (v a : Nat) (hsize : size ≤ 2 ^ w) (hv : v < 256 ^ size)
    (hres : LocalMember.get_offset w mem m = RResult.ok a)
    (hres2 : LocalMember.get_offset w (storeBytes w mem a (toLEBytes size v)) m =
      RResult.ok a) :
    LocalMember.write w size mem m v =
        RResult.ok (storeBytes w mem a (toLEBytes size v)) ∧
    LocalMember.read w size (storeBytes w mem a (toLEBytes size v)) m =
        RResult.ok v := by
  constructor
  · simp only [LocalMember.write, hres]
  · have hlen : (toLEBytes size v).length = size := toLEBytes_length size v
    have hload : fromLE (loadBytes w (storeBytes w mem a (toLEBytes size v)) a size) = v := by
      calc fromLE (loadBytes w (storeBytes w mem a (toLEBytes size v)) a size)
          = fromLE (loadBytes w (storeBytes w mem a (toLEBytes size v)) a
              (toLEBytes size v).length) := by rw [hlen]
        _ = fromLE ((toLEBytes size v).map (fun b => b % 256)) := by
              rw [loadBytes_storeBytes w mem a _ (by rw [hlen]; exact hsize)]
        _ = fromLE (toLEBytes size v) := fromLE_map_mod _
        _ = v := fromLE_toLEBytes size v hv
    simp only [LocalMember.read, hres2, hload]

/-- C5 witness: on the single-offset chain `[8]` over zeroed memory, writing
the 32-bit boundary value `4294967295` and reading it back returns exactly it. -/
theorem write_read_roundtrip_witness :
    LocalMember.write 64 4 (fun _ => 0) { offsets := [8] } 4294967295 =
        RResult.ok (storeBytes 64 (fun _ => 0) 8 (toLEBytes 4 4294967295)) ∧
    LocalMember.read 64 4 (storeBytes 64 (fun _ => 0) 8 (toLEBytes 4 4294967295))
        { offsets := [8] } = RResult.ok 4294967295 :=
  write_read_roundtrip 64 4 (fun _ => 0) { offsets := [8] } 4294967295 8
    (by norm_num) (by norm_num) rfl rfl
